import Mathlib

/-!
Verification development for the core of a userspace WireGuard implementation
(josharian/wireguard-go). Constants are embedded from
`src/device/queueconstants_default.go`, the peer-statistics accessor from the
`PeerStats` method, and the two-device scenarios from the device tests.
Components whose implementation files are not part of the extracted sources
(replay window, session counters, transport seal/open, queue overflow policy,
buffer pool) are modelled from the specification, as marked on each
definition.
-/

namespace WireGuard

/-- From `src/device/queueconstants_default.go`: `QueueOutboundSize = 1024`. -/
def QueueOutboundSize : Nat := 1024

/-- From `src/device/queueconstants_default.go`: `QueueInboundSize = 1024`. -/
def QueueInboundSize : Nat := 1024

/-- From `src/device/queueconstants_default.go`: `QueueHandshakeSize = 1024`. -/
def QueueHandshakeSize : Nat := 1024

/-- From `src/device/queueconstants_default.go`:
`MaxSegmentSize = (1 << 16) - 1`, the largest possible UDP datagram. -/
def MaxSegmentSize : Nat := (1 <<< 16) - 1

/-- From `src/device/queueconstants_default.go`:
`PreallocatedBuffersPerPool = 1024`. -/
def PreallocatedBuffersPerPool : Nat := 1024

/-- Modelled from the spec (§6, missing from the extracted sources):
`REPLAY_WINDOW = 2048`, the replay bitmap width W. -/
def ReplayWindowSize : Nat := 2048

/-- Modelled from the spec (§6, missing from the extracted sources):
`REJECT_AFTER_MESSAGES = 2^64 − 2^16 − 1`. -/
def RejectAfterMessages : Nat := 2 ^ 64 - 2 ^ 16 - 1

/-- Modelled from the spec (§3/§6, missing from the extracted sources):
the send-side practical cap of `2^60` messages per session. -/
def SendRejectLimit : Nat := 2 ^ 60

/-- Modelled from the spec (§4.3, missing from the extracted sources):
per receiving session, the largest accepted counter `last` together with
the set of counters whose window bit is set. The bitmap of width W is
represented by the set of accepted counters still inside the window. -/
structure ReplayWindow where
  last : Nat
  bits : Finset Nat
deriving DecidableEq

/-- A fresh receiving session: no counter accepted yet. -/
def ReplayWindow.init : ReplayWindow := ⟨0, ∅⟩

/-- Modelled from the spec (§4.3, missing from the extracted sources), the
accept-query on counter `n`, returning (accepted?, updated window):
reject if `n ≥ REJECT_AFTER_MESSAGES`; if `n > last` advance the window,
clear vacated bits, set the bit for `n`, accept; reject if `last − n ≥ W`;
otherwise reject if the bit is already set, else set it and accept. -/
def ReplayWindow.check (w : ReplayWindow) (n : Nat) : Bool × ReplayWindow :=
  if n ≥ RejectAfterMessages then (false, w)
  else if n > w.last then
    (true, ⟨n, insert n (w.bits.filter (fun m => n < m + ReplayWindowSize))⟩)
  else if w.last - n ≥ ReplayWindowSize then (false, w)
  else if n ∈ w.bits then (false, w)
  else (true, ⟨w.last, insert n w.bits⟩)

/-- Run a sequence of accept-queries, returning the accepted counters in
order. -/
def ReplayWindow.run (w : ReplayWindow) : List Nat → List Nat
  | [] => []
  | n :: ns =>
    let r := w.check n
    if r.1 then n :: r.2.run ns else r.2.run ns

/-- State invariant relating a window to the set `A` of counters accepted so
far: every accepted counter is at most `last`, and while still inside the
window its bit is set. -/
def ReplayWindow.Inv (w : ReplayWindow) (A : List Nat) : Prop :=
  ∀ n ∈ A, n ≤ w.last ∧ (w.last - n < ReplayWindowSize → n ∈ w.bits)

theorem ReplayWindow.check_rejects_of_mem {w : ReplayWindow} {A : List Nat}
    (hInv : w.Inv A) {n : Nat} (hn : n ∈ A) : (w.check n).1 = false := by
  obtain ⟨hle, hbit⟩ := hInv n hn
  unfold ReplayWindow.check
  by_cases h1 : n ≥ RejectAfterMessages
  · simp [h1]
  · by_cases h2 : n > w.last
    · omega
    · by_cases h3 : w.last - n ≥ ReplayWindowSize
      · simp [h1, h2, h3]
      · have : n ∈ w.bits := hbit (by omega)
        simp [h1, h2, h3, this]

theorem ReplayWindow.check_false_eq {w : ReplayWindow} {n : Nat}
    (h : (w.check n).1 = false) : (w.check n).2 = w := by
  unfold ReplayWindow.check at *
  by_cases h1 : n ≥ RejectAfterMessages
  · simp [h1]
  · by_cases h2 : n > w.last
    · simp [h1, h2] at h
    · by_cases h3 : w.last - n ≥ ReplayWindowSize
      · simp [h1, h2, h3]
      · by_cases h4 : n ∈ w.bits
        · simp [h1, h2, h3, h4]
        · simp [h1, h2, h3, h4] at h

theorem ReplayWindow.check_inv {w : ReplayWindow} {A : List Nat}
    (hInv : w.Inv A) {n : Nat} (h : (w.check n).1 = true) :
    (w.check n).2.Inv (n :: A) := by
  unfold ReplayWindow.check at *
  by_cases h1 : n ≥ RejectAfterMessages
  · simp [h1] at h
  · by_cases h2 : n > w.last
    · simp only [h1, h2, if_true, if_false, ite_true, ite_false]
      intro m hm
      dsimp only
      rcases List.mem_cons.mp hm with rfl | hmA
      · refine ⟨le_refl _, fun _ => Finset.mem_insert_self _ _⟩
      · obtain ⟨hle, hbit⟩ := hInv m hmA
        refine ⟨by omega, fun hwin => ?_⟩
        have hmw : m ∈ w.bits := hbit (by omega)
        refine Finset.mem_insert_of_mem ?_
        exact Finset.mem_filter.mpr ⟨hmw, by omega⟩
    · by_cases h3 : w.last - n ≥ ReplayWindowSize
      · simp [h1, h2, h3] at h
      · by_cases h4 : n ∈ w.bits
        · simp [h1, h2, h3, h4] at h
        · simp only [h1, h2, h3, h4, if_true, if_false, ite_true, ite_false]
          intro m hm
          dsimp only
          rcases List.mem_cons.mp hm with rfl | hmA
          · exact ⟨by omega, fun _ => Finset.mem_insert_self _ _⟩
          · obtain ⟨hle, hbit⟩ := hInv m hmA
            exact ⟨hle, fun hwin => Finset.mem_insert_of_mem (hbit hwin)⟩

theorem ReplayWindow.run_nodup_aux :
    ∀ (ns : List Nat) (w : ReplayWindow) (A : List Nat), w.Inv A →
      (∀ a ∈ w.run ns, a ∉ A) ∧ (w.run ns).Nodup := by
  intro ns
  induction ns with
  | nil => intro w A _; simp [ReplayWindow.run]
  | cons n ns ih =>
    intro w A hInv
    by_cases hc : (w.check n).1 = true
    · have hInv' := ReplayWindow.check_inv hInv hc
      obtain ⟨hnotin, hnodup⟩ := ih (w.check n).2 (n :: A) hInv'
      have hrun : w.run (n :: ns) = n :: (w.check n).2.run ns := by
        simp [ReplayWindow.run, hc]
      constructor
      · intro a ha haA
        rw [hrun] at ha
        rcases List.mem_cons.mp ha with rfl | ha'
        · have := ReplayWindow.check_rejects_of_mem hInv haA
          rw [hc] at this; exact Bool.noConfusion this
        · exact hnotin a ha' (List.mem_cons_of_mem _ haA)
      · rw [hrun]
        refine List.nodup_cons.mpr ⟨?_, hnodup⟩
        intro hmem
        exact hnotin n hmem (List.mem_cons_self _ _)
    · have hc' : (w.check n).1 = false := by
        cases h : (w.check n).1
        · rfl
        · exact absurd h hc
      have heq := ReplayWindow.check_false_eq hc'
      have hrun : w.run (n :: ns) = w.run ns := by
        simp only [ReplayWindow.run, hc', if_false, Bool.false_eq_true, ite_false]
        rw [heq]
      rw [hrun]
      exact ih w A hInv

/-- C2: the replay-window accept-query, with window width W = 2048 and `last`
the largest accepted counter, behaves exactly as: reject if
`n ≥ REJECT_AFTER_MESSAGES`; if `n > last`, advance the window, clear vacated
bits, set the bit for `n`, and accept; reject if `last − n ≥ W`; otherwise
reject if the bit for `n` is set, else set it and accept. Consequently, for
every session, the accepted counters are pairwise distinct. -/
theorem replay_window_behavior :
    (∀ (w : ReplayWindow) (n : Nat), RejectAfterMessages ≤ n →
      w.check n = (false, w)) ∧
    (∀ (w : ReplayWindow) (n : Nat), n < RejectAfterMessages → w.last < n →
      w.check n =
        (true, ⟨n, insert n (w.bits.filter (fun m => n < m + ReplayWindowSize))⟩)) ∧
    (∀ (w : ReplayWindow) (n : Nat), n < RejectAfterMessages → n ≤ w.last →
      ReplayWindowSize ≤ w.last - n → w.check n = (false, w)) ∧
    (∀ (w : ReplayWindow) (n : Nat), n < RejectAfterMessages → n ≤ w.last →
      w.last - n < ReplayWindowSize →
      w.check n =
        if n ∈ w.bits then (false, w) else (true, ⟨w.last, insert n w.bits⟩)) ∧
    (∀ ns : List Nat, (ReplayWindow.init.run ns).Nodup) := by
  refine ⟨?_, ?_, ?_, ?_, ?_⟩
  · intro w n h
    unfold ReplayWindow.check
    rw [if_pos h]
  · intro w n h1 h2
    unfold ReplayWindow.check
    rw [if_neg (by omega), if_pos h2]
  · intro w n h1 h2 h3
    unfold ReplayWindow.check
    rw [if_neg (by omega), if_neg (by omega), if_pos h3]
  · intro w n h1 h2 h3
    unfold ReplayWindow.check
    rw [if_neg (by omega), if_neg (by omega), if_neg (by omega)]
  · intro ns
    have hInv : ReplayWindow.init.Inv [] := by
      intro n hn
      exact absurd hn (List.not_mem_nil n)
    exact (ReplayWindow.run_nodup_aux ns ReplayWindow.init [] hInv).2

/-- Witness for `replay_window_behavior` at concrete inputs. -/
theorem replay_window_behavior_witness :
    ReplayWindow.init.check (2 ^ 64) = (false, ReplayWindow.init) ∧
    (ReplayWindow.init.run [0, 1, 1, 5, 3, 3, 2, 5000, 5000]).Nodup :=
  ⟨replay_window_behavior.1 ReplayWindow.init (2 ^ 64)
      (by unfold RejectAfterMessages; omega),
    replay_window_behavior.2.2.2.2 [0, 1, 1, 5, 3, 3, 2, 5000, 5000]⟩

/-- Modelled from the spec (§3/§8, missing from the extracted sources): the
send half of a session is just its 64-bit send counter; the next nonce is
drawn from it. -/
structure SendSession where
  sendCounter : Nat
deriving DecidableEq

/-- Modelled from the spec (§3/§4.2, missing from the extracted sources):
sending assigns the packet the session's current send counter as its nonce
and increments the counter; once the counter has reached the send-side cap
the session is unusable for sending and the send fails. -/
def SendSession.send (s : SendSession) : Option (Nat × SendSession) :=
  if SendRejectLimit ≤ s.sendCounter then none
  else some (s.sendCounter, ⟨s.sendCounter + 1⟩)

/-- Perform `k` sends in a row, returning the list of nonces used, stopping
early if the session becomes unusable. -/
def SendSession.sendAll (s : SendSession) : Nat → List Nat
  | 0 => []
  | k + 1 =>
    match s.send with
    | none => []
    | some (n, s') => n :: s'.sendAll k

theorem SendSession.sendAll_eq_range' :
    ∀ (k c : Nat), c + k ≤ SendRejectLimit →
      SendSession.sendAll ⟨c⟩ k = List.range' c k := by
  intro k
  induction k with
  | zero => intro c _; rfl
  | succ k ih =>
    intro c hc
    have hlt : ¬ SendRejectLimit ≤ c := by omega
    simp only [SendSession.sendAll, SendSession.send, hlt, if_false, ite_false]
    rw [List.range'_succ]
    exact congrArg (c :: ·) (ih (c + 1) (by omega))

/-- C3: starting from a fresh session, the nonces of sent packets form the
strictly increasing sequence 0, 1, 2, …; each sent nonce equals the
session's send counter at enqueue time and the counter advances by one; and
once the counter has reached the send-side cap of 2^60 messages the session
is unusable for sending, so the counter never wraps. -/
theorem send_counter_monotonic :
    (∀ k : Nat, k ≤ SendRejectLimit →
      SendSession.sendAll ⟨0⟩ k = List.range k) ∧
    (∀ (s : SendSession) (n : Nat) (s' : SendSession),
      s.send = some (n, s') → n = s.sendCounter ∧ s'.sendCounter = n + 1) ∧
    (∀ k : Nat, k ≤ SendRejectLimit →
      List.Chain' (· < ·) (SendSession.sendAll ⟨0⟩ k)) ∧
    (∀ s : SendSession, SendRejectLimit ≤ s.sendCounter → s.send = none) := by
  have hrange : ∀ k : Nat, k ≤ SendRejectLimit →
      SendSession.sendAll ⟨0⟩ k = List.range k := by
    intro k hk
    have h := SendSession.sendAll_eq_range' k 0 (by omega)
    rw [List.range_eq_range']
    exact h
  refine ⟨hrange, ?_, ?_, ?_⟩
  · intro s n s' h
    unfold SendSession.send at h
    by_cases hs : SendRejectLimit ≤ s.sendCounter
    · rw [if_pos hs] at h
      exact Option.noConfusion h
    · rw [if_neg hs] at h
      simp only [Option.some.injEq, Prod.mk.injEq] at h
      obtain ⟨h1, h2⟩ := h
      refine ⟨h1.symm, ?_⟩
      rw [← h2]
      dsimp only
      omega
  · intro k hk
    rw [hrange k hk]
    exact (List.pairwise_lt_range k).chain'
  · intro s hs
    unfold SendSession.send
    rw [if_pos hs]

/-- Witness for `send_counter_monotonic` at concrete inputs. -/
theorem send_counter_monotonic_witness :
    SendSession.sendAll ⟨0⟩ 5 = List.range 5 ∧
    SendSession.send ⟨2 ^ 60⟩ = none :=
  ⟨send_counter_monotonic.1 5 (by unfold SendRejectLimit; omega),
    send_counter_monotonic.2.2.2 ⟨2 ^ 60⟩ (le_refl _)⟩

/-! ### Transport frames: seal and open

The wire format of a transport frame (spec §6): type(1) ‖ reserved(3) ‖
receiver-index(4) ‖ counter(8) ‖ AEAD(ciphertext ‖ tag16), all multi-byte
integers little-endian, payload zero-padded to a 16-byte multiple before
encryption. Packets are byte lists; a byte is a `Nat` below 256. -/

/-- Transport-data type discriminator (spec §4.1: the fourth message type). -/
def MessageTransportType : Nat := 4

/-- Little-endian 4-byte encoding of a 32-bit integer. -/
def le32 (n : Nat) : List Nat :=
  [n % 256, n / 256 % 256, n / 256 ^ 2 % 256, n / 256 ^ 3 % 256]

/-- Little-endian 8-byte encoding of a 64-bit integer. -/
def le64 (n : Nat) : List Nat :=
  [n % 256, n / 256 % 256, n / 256 ^ 2 % 256, n / 256 ^ 3 % 256,
   n / 256 ^ 4 % 256, n / 256 ^ 5 % 256, n / 256 ^ 6 % 256, n / 256 ^ 7 % 256]

/-- Decode a little-endian 4-byte field. -/
def de32 (bs : List Nat) : Nat :=
  match bs with
  | [a, b, c, d] => a + 256 * (b + 256 * (c + 256 * d))
  | _ => 0

/-- Decode a little-endian 8-byte field. -/
def de64 (bs : List Nat) : Nat :=
  match bs with
  | [a, b, c, d, e, f, g, h] =>
    a + 256 * (b + 256 * (c + 256 * (d + 256 * (e + 256 * (f + 256 * (g + 256 * h))))))
  | _ => 0

/-- Modelled from the spec (§1: primitives assumed available and correct):
the 16-byte Poly1305 authentication tag, abstracted as sixteen copies of a
byte determined by the key, the nonce and the plaintext. -/
def aeadTag (key nonce : Nat) (p : List Nat) : List Nat :=
  List.replicate 16 ((key + nonce + p.sum) % 256)

/-- Modelled from the spec: AEAD-seal appends the tag to the plaintext (the
stream cipher itself is a bijection on the payload bytes, so the payload is
carried unchanged in the model). -/
def aeadSeal (key nonce : Nat) (p : List Nat) : List Nat :=
  p ++ aeadTag key nonce p

/-- Modelled from the spec: AEAD-open checks the length and the tag, and
returns the plaintext on success, `none` on authentication failure. -/
def aeadOpen (key nonce : Nat) (c : List Nat) : Option (List Nat) :=
  if 16 ≤ c.length then
    if c.drop (c.length - 16) = aeadTag key nonce (c.take (c.length - 16))
    then some (c.take (c.length - 16)) else none
  else none

/-- Zero-pad a payload to the next 16-byte boundary (spec §6). -/
def padTo16 (p : List Nat) : List Nat :=
  p ++ List.replicate ((16 - p.length % 16) % 16) 0

/-- The inner packet's own length: for IPv4 (first nibble 4) the big-endian
total-length field at bytes 2–3; for IPv6 (first nibble 6) 40 plus the
big-endian payload-length field at bytes 4–5 (spec §6: v4 or v6 are
distinguished by the first nibble). The receiver truncates the decrypted
padded payload to this length. -/
def ipPacketLen (p : List Nat) : Nat :=
  if p.getD 0 0 / 16 = 4 then p.getD 2 0 * 256 + p.getD 3 0
  else if p.getD 0 0 / 16 = 6 then 40 + (p.getD 4 0 * 256 + p.getD 5 0)
  else 0

/-- Strip the zero padding from a decrypted payload by truncating to the
inner packet's own length. -/
def unpad (p : List Nat) : List Nat := p.take (ipPacketLen p)

/-- Modelled from the spec (§3, missing from the extracted sources): the
key material and indices of a live session, as needed for sealing and
opening transport frames. -/
structure Session where
  sendKey : Nat
  recvKey : Nat
  localIndex : Nat
  remoteIndex : Nat
deriving DecidableEq

/-- Two sessions are paired when they are the two ends of one completed
handshake: each side's send key is the other side's receive key, and each
side's remote index names the other side's local index. -/
def Paired (S Sp : Session) : Prop :=
  S.sendKey = Sp.recvKey ∧ S.recvKey = Sp.sendKey ∧
    S.remoteIndex = Sp.localIndex ∧ S.localIndex = Sp.remoteIndex

/-- Modelled from the spec (§4.5 step 3, missing from the extracted
sources): seal an inner packet into a transport frame — pad to a 16-byte
boundary, AEAD-seal under the session send key with nonce = counter, and
prepend the transport header (type, reserved, receiver index, counter). -/
def sealTransport (S : Session) (counter : Nat) (packet : List Nat) : List Nat :=
  MessageTransportType :: 0 :: 0 :: 0 ::
    (le32 S.remoteIndex ++ le64 counter ++
      aeadSeal S.sendKey counter (padTo16 packet))

/-- Modelled from the spec (§4.5 inbound, missing from the extracted
sources): open a transport frame under the session receive key — check the
type byte and reserved bytes, parse receiver index and counter, AEAD-open
the remainder; returns (receiver index, counter, padded payload). -/
def openTransport (S : Session) (msg : List Nat) : Option (Nat × Nat × List Nat) :=
  match msg with
  | t :: r1 :: r2 :: r3 :: rest =>
    if t = MessageTransportType ∧ r1 = 0 ∧ r2 = 0 ∧ r3 = 0 ∧ 12 ≤ rest.length then
      let ridx := de32 (rest.take 4)
      let ctr := de64 ((rest.drop 4).take 8)
      match aeadOpen S.recvKey ctr (rest.drop 12) with
      | some p => some (ridx, ctr, p)
      | none => none
    else none
  | _ => none

example :
    openTransport ⟨9, 7, 2, 3⟩
      (sealTransport ⟨7, 9, 3, 2⟩ 5 [69, 0, 0, 20, 0, 0, 0, 0, 0, 0, 0, 0, 0, 0, 0, 0, 0, 0, 0, 20]) =
      some (2, 5, padTo16 [69, 0, 0, 20, 0, 0, 0, 0, 0, 0, 0, 0, 0, 0, 0, 0, 0, 0, 0, 20]) := by
  decide

example :
    unpad (padTo16 [69, 0, 0, 20, 0, 0, 0, 0, 0, 0, 0, 0, 0, 0, 0, 0, 0, 0, 0, 20]) =
      [69, 0, 0, 20, 0, 0, 0, 0, 0, 0, 0, 0, 0, 0, 0, 0, 0, 0, 0, 20] := by
  decide

theorem aeadTag_length (key nonce : Nat) (p : List Nat) :
    (aeadTag key nonce p).length = 16 := by
  simp [aeadTag]

theorem aeadSeal_length (key nonce : Nat) (p : List Nat) :
    (aeadSeal key nonce p).length = p.length + 16 := by
  simp [aeadSeal, aeadTag]

theorem aeadOpen_aeadSeal (key nonce : Nat) (p : List Nat) :
    aeadOpen key nonce (aeadSeal key nonce p) = some p := by
  have hlen := aeadSeal_length key nonce p
  have htake : (aeadSeal key nonce p).take ((aeadSeal key nonce p).length - 16) = p := by
    rw [hlen, Nat.add_sub_cancel]
    unfold aeadSeal
    rw [List.take_append_of_le_length (le_refl p.length), List.take_length]
  have hdrop : (aeadSeal key nonce p).drop ((aeadSeal key nonce p).length - 16) =
      aeadTag key nonce p := by
    rw [hlen, Nat.add_sub_cancel]
    unfold aeadSeal
    rw [List.drop_append_of_le_length (le_refl p.length), List.drop_length,
      List.nil_append]
  unfold aeadOpen
  rw [htake, hdrop, if_pos (show 16 ≤ (aeadSeal key nonce p).length by omega),
    if_pos rfl]

theorem openTransport_sealTransport (S Sp : Session) (ctr : Nat)
    (packet : List Nat) (hkey : S.sendKey = Sp.recvKey)
    (hidx : S.remoteIndex < 2 ^ 32) (hctr : ctr < 2 ^ 64) :
    openTransport Sp (sealTransport S ctr packet) =
      some (S.remoteIndex, ctr, padTo16 packet) := by
  have h4 : (le32 S.remoteIndex).length = 4 := rfl
  have h8 : (le64 ctr).length = 8 := rfl
  have h12 : (le32 S.remoteIndex ++ le64 ctr).length = 12 := by
    rw [List.length_append, h4, h8]
  unfold sealTransport openTransport
  dsimp only
  have hcond : MessageTransportType = MessageTransportType ∧ (0:Nat) = 0 ∧
      (0:Nat) = 0 ∧ (0:Nat) = 0 ∧
      12 ≤ (le32 S.remoteIndex ++ le64 ctr ++
        aeadSeal S.sendKey ctr (padTo16 packet)).length := by
    refine ⟨rfl, rfl, rfl, rfl, ?_⟩
    rw [List.length_append, h12]
    omega
  rw [if_pos hcond]
  have htake4 : (le32 S.remoteIndex ++ le64 ctr ++
      aeadSeal S.sendKey ctr (padTo16 packet)).take 4 = le32 S.remoteIndex := by
    rw [List.take_append_of_le_length (by rw [h12]; omega),
      List.take_append_of_le_length (by rw [h4]),
      List.take_of_length_le (by rw [h4])]
  have hdrop4 : (le32 S.remoteIndex ++ le64 ctr ++
      aeadSeal S.sendKey ctr (padTo16 packet)).drop 4 =
      le64 ctr ++ aeadSeal S.sendKey ctr (padTo16 packet) := by
    rw [List.drop_append_of_le_length (by rw [h12]; omega),
      List.drop_append_of_le_length (by rw [h4]),
      List.drop_eq_nil_of_le (by rw [h4]), List.nil_append]
  have htake8 : (le64 ctr ++ aeadSeal S.sendKey ctr (padTo16 packet)).take 8 =
      le64 ctr := by
    rw [List.take_append_of_le_length (by rw [h8]),
      List.take_of_length_le (by rw [h8])]
  have hdrop12 : (le32 S.remoteIndex ++ le64 ctr ++
      aeadSeal S.sendKey ctr (padTo16 packet)).drop 12 =
      aeadSeal S.sendKey ctr (padTo16 packet) := by
    rw [List.drop_append_of_le_length (by rw [h12]),
      List.drop_eq_nil_of_le (by rw [h12]), List.nil_append]
  rw [htake4, hdrop4, htake8, hdrop12]
  have hde32 : de32 (le32 S.remoteIndex) = S.remoteIndex := by
    unfold de32 le32
    have h2 : (2:Nat) ^ 32 = 256 ^ 4 := by norm_num
    rw [h2] at hidx
    dsimp only
    omega
  have hde64 : de64 (le64 ctr) = ctr := by
    unfold de64 le64
    have h2 : (2:Nat) ^ 64 = 256 ^ 8 := by norm_num
    rw [h2] at hctr
    dsimp only
    omega
  rw [hde32, hde64, hkey, aeadOpen_aeadSeal]

theorem unpad_padTo16 (p : List Nat) (hlen : ipPacketLen p = p.length)
    (hmin : 20 ≤ p.length) : unpad (padTo16 p) = p := by
  have hget : ∀ i, i < p.length → (padTo16 p).getD i 0 = p.getD i 0 := by
    intro i hi
    unfold padTo16
    exact List.getD_append _ _ _ _ hi
  have hip : ipPacketLen (padTo16 p) = ipPacketLen p := by
    unfold ipPacketLen
    rw [hget 0 (by omega), hget 2 (by omega), hget 3 (by omega),
      hget 4 (by omega), hget 5 (by omega)]
  unfold unpad
  rw [hip, hlen]
  unfold padTo16
  rw [List.take_append_of_le_length (le_refl p.length), List.take_length]

/-- C1: for an inner IP packet addressed to an allowed IP of a configured
peer, sealing under session S and opening under the paired session S' is
the identity on the inner packet: the frame opens successfully at the
receiver's session index and counter, and unpadding the decrypted payload
recovers the injected packet byte-for-byte. The hypotheses say the packet
is a well-formed inner IP packet: its own length field equals its actual
length and it is at least one IPv4 header long. -/
theorem seal_open_roundtrip (S Sp : Session) (ctr : Nat) (packet : List Nat)
    (hp : Paired S Sp) (hidx : S.remoteIndex < 2 ^ 32) (hctr : ctr < 2 ^ 64)
    (hlen : ipPacketLen packet = packet.length) (hmin : 20 ≤ packet.length) :
    openTransport Sp (sealTransport S ctr packet) =
        some (Sp.localIndex, ctr, padTo16 packet) ∧
      unpad (padTo16 packet) = packet := by
  obtain ⟨hk, _, hi, _⟩ := hp
  refine ⟨?_, unpad_padTo16 packet hlen hmin⟩
  rw [← hi]
  exact openTransport_sealTransport S Sp ctr packet hk hidx hctr

/-- Witness for `seal_open_roundtrip`: the ICMP-style scenario of the
two-device ping test, with a concrete 20-byte inner IPv4 packet
1.0.0.1 → 1.0.0.2 and a concrete pair of sessions. -/
theorem seal_open_roundtrip_witness :
    openTransport ⟨9, 7, 2, 3⟩
        (sealTransport ⟨7, 9, 3, 2⟩ 0
          [69, 0, 0, 20, 0, 0, 0, 0, 64, 1, 0, 0, 1, 0, 0, 1, 1, 0, 0, 2]) =
        some (2, 0,
          padTo16 [69, 0, 0, 20, 0, 0, 0, 0, 64, 1, 0, 0, 1, 0, 0, 1, 1, 0, 0, 2]) ∧
      unpad (padTo16 [69, 0, 0, 20, 0, 0, 0, 0, 64, 1, 0, 0, 1, 0, 0, 1, 1, 0, 0, 2]) =
        [69, 0, 0, 20, 0, 0, 0, 0, 64, 1, 0, 0, 1, 0, 0, 1, 1, 0, 0, 2] :=
  seal_open_roundtrip ⟨7, 9, 3, 2⟩ ⟨9, 7, 2, 3⟩ 0
    [69, 0, 0, 20, 0, 0, 0, 0, 64, 1, 0, 0, 1, 0, 0, 1, 1, 0, 0, 2]
    ⟨rfl, rfl, rfl, rfl⟩ (by decide) (by decide) (by decide) (by decide)

/-! ### Peer statistics: the `Device.PeerStats` accessor

Embedded from the `PeerStats` method and its `PeerStats` struct
(`src/unnamed/part_000`), together with a model of Go's `time.Time` as far
as `time.Unix` and `Time.IsZero` are concerned. -/

/-- A peer's 32-byte static public key, abstracted to its value. -/
abbrev NoisePublicKey := Nat

/-- Go's `time.Time`, modelled by its absolute seconds since January 1 of
year 1 (the zero `Time`) plus a nanosecond part. The zero value of the
struct has both fields 0. -/
structure GoTime where
  sec : Int
  nsec : Int
deriving DecidableEq

/-- Go's `unixToInternal`: seconds from January 1 of year 1 to the Unix
epoch, `(1969*365 + 1969/4 − 1969/100 + 1969/400) * 86400 = 62135596800`. -/
def unixToInternal : Int := 62135596800

/-- Go's `time.Unix(sec, nsec)`: normalise `nsec` into `[0, 10^9)` moving
whole seconds into `sec` (Go adjusts a truncated division by a
sign-correction step, which is exactly Euclidean division), then shift to
the internal epoch. -/
def timeUnix (sec nsec : Int) : GoTime :=
  ⟨sec + nsec / 1000000000 + unixToInternal, nsec % 1000000000⟩

/-- Go's `Time.IsZero`: reports whether the instant is January 1, year 1,
00:00:00 UTC — both internal fields zero. -/
def GoTime.isZero (t : GoTime) : Bool := t.sec == 0 && t.nsec == 0

/-- The unexported per-peer counters guarded by the peer lock
(`peer.stats` in the source): `rxBytes`, `txBytes` and
`lastHandshakeNano`. -/
structure PeerStatsInternal where
  rxBytes : Nat
  txBytes : Nat
  lastHandshakeNano : Int
deriving DecidableEq

/-- The slice of a peer needed by the statistics accessor: its stats block,
plus pending handshake state (spec §3) so that handshake initiation and
completion are distinguishable events. -/
structure Peer where
  stats : PeerStatsInternal
  handshakeInitiatedNano : Option Int
deriving DecidableEq

/-- From `src/unnamed/part_000`: `PeerStats` are connection statistics for
a given Peer — `RxBytes`, `TxBytes`, `LastHandshakeInitiated`. -/
structure PeerStats where
  RxBytes : Nat
  TxBytes : Nat
  LastHandshakeInitiated : GoTime
deriving DecidableEq

/-- The slice of a device needed by the statistics accessor: the map from
static public key to peer (`device.peers.keyMap`), as an association
list. -/
structure Device where
  keyMap : List (NoisePublicKey × Peer)
deriving DecidableEq

/-- Embedded from the `PeerStats` method (`src/unnamed/part_000`): look the
key up in `device.peers.keyMap`; if there is no peer with that key return
nil, otherwise return a freshly built `PeerStats` holding the peer's
`rxBytes`, `txBytes` and `time.Unix(0, lastHandshakeNano)`. The method only
takes read locks, so it is modelled as returning the device unchanged. -/
def Device.PeerStats (device : Device) (pk : NoisePublicKey) :
    Option PeerStats × Device :=
  match device.keyMap.lookup pk with
  | none => (none, device)
  | some peer =>
    (some ⟨peer.stats.rxBytes, peer.stats.txBytes,
      timeUnix 0 peer.stats.lastHandshakeNano⟩, device)

/-- Modelled from the spec (§4.1, missing from the extracted sources):
sending an INITIATION records pending handshake state on the peer; it does
not touch the last-successful-handshake timestamp. -/
def Peer.initiateHandshake (peer : Peer) (now : Int) : Peer :=
  { peer with handshakeInitiatedNano := some now }

/-- Modelled from the spec (§3: "timestamp of last successful handshake",
missing from the extracted sources): completing a handshake stores the
completion time in the peer's stats and clears the pending state. -/
def Peer.completeHandshake (peer : Peer) (now : Int) : Peer :=
  ⟨{ peer.stats with lastHandshakeNano := now }, none⟩

theorem timeUnix_zero_inj {a b : Int} (h : timeUnix 0 a = timeUnix 0 b) :
    a = b := by
  unfold timeUnix at h
  rw [GoTime.mk.injEq] at h
  obtain ⟨h1, h2⟩ := h
  omega

theorem Device.PeerStats_of_lookup_some {device : Device}
    {pk : NoisePublicKey} {peer : Peer}
    (h : device.keyMap.lookup pk = some peer) :
    device.PeerStats pk =
      (some ⟨peer.stats.rxBytes, peer.stats.txBytes,
        timeUnix 0 peer.stats.lastHandshakeNano⟩, device) := by
  unfold Device.PeerStats
  rw [h]

theorem Device.PeerStats_of_lookup_none {device : Device}
    {pk : NoisePublicKey} (h : device.keyMap.lookup pk = none) :
    device.PeerStats pk = (none, device) := by
  unfold Device.PeerStats
  rw [h]

/-- C8: `Device.PeerStats pk` returns nil exactly when the device has no
peer whose static public key is `pk`; when a peer exists it returns a
freshly built snapshot of that peer's counters and handshake time; and the
call never modifies device or peer state. -/
theorem peerStats_none_iff (device : Device) (pk : NoisePublicKey) :
    ((device.PeerStats pk).1 = none ↔ device.keyMap.lookup pk = none) ∧
      (device.PeerStats pk).2 = device ∧
      (∀ peer : Peer, device.keyMap.lookup pk = some peer →
        (device.PeerStats pk).1 =
          some ⟨peer.stats.rxBytes, peer.stats.txBytes,
            timeUnix 0 peer.stats.lastHandshakeNano⟩) := by
  cases h : device.keyMap.lookup pk with
  | none =>
    rw [Device.PeerStats_of_lookup_none h]
    exact ⟨by simp, rfl, fun peer hpeer => by cases hpeer⟩
  | some peer =>
    rw [Device.PeerStats_of_lookup_some h]
    refine ⟨by simp, rfl, fun peer' hpeer => ?_⟩
    cases hpeer
    rfl

/-- Witness for `peerStats_none_iff` at a concrete one-peer device. -/
theorem peerStats_none_iff_witness :
    (Device.PeerStats ⟨[(1, ⟨⟨10, 20, 5⟩, none⟩)]⟩ 1).1 =
      some ⟨10, 20, timeUnix 0 5⟩ :=
  (peerStats_none_iff ⟨[(1, ⟨⟨10, 20, 5⟩, none⟩)]⟩ 1).2.2 ⟨⟨10, 20, 5⟩, none⟩ rfl

/-- C9: for a peer that has never completed a handshake (stored
`lastHandshakeNano` still 0), `Device.PeerStats` reports
`LastHandshakeInitiated` equal to `time.Unix(0, 0)` — the Unix epoch,
62135596800 s after the zero `time.Time` — so `IsZero` is false on it and
callers cannot distinguish "never" that way. -/
theorem peerStats_never_handshaked (device : Device) (pk : NoisePublicKey)
    (peer : Peer) (hlk : device.keyMap.lookup pk = some peer)
    (h0 : peer.stats.lastHandshakeNano = 0) :
    (device.PeerStats pk).1 =
        some ⟨peer.stats.rxBytes, peer.stats.txBytes, timeUnix 0 0⟩ ∧
      timeUnix 0 0 = ⟨unixToInternal, 0⟩ ∧
      (timeUnix 0 0).isZero = false := by
  refine ⟨?_, by decide, by decide⟩
  rw [Device.PeerStats_of_lookup_some hlk, h0]

/-- Witness for `peerStats_never_handshaked` at a concrete device whose
single peer has never completed a handshake. -/
theorem peerStats_never_handshaked_witness :
    (Device.PeerStats ⟨[(3, ⟨⟨4, 6, 0⟩, none⟩)]⟩ 3).1 =
        some ⟨4, 6, timeUnix 0 0⟩ ∧
      timeUnix 0 0 = ⟨unixToInternal, 0⟩ ∧
      (timeUnix 0 0).isZero = false :=
  peerStats_never_handshaked ⟨[(3, ⟨⟨4, 6, 0⟩, none⟩)]⟩ 3 ⟨⟨4, 6, 0⟩, none⟩
    rfl rfl

/-- C4: for a peer present in the device, the statistics query reports the
peer's `rxBytes` and `txBytes` counters and the timestamp of the peer's
last successful handshake: after a handshake initiated at `t0` and
completed at `t1`, the reported time is `time.Unix(0, t1)` — the completion
time, which differs from the initiation time whenever `t0 ≠ t1`. -/
theorem peerStats_reports_completion (pk : NoisePublicKey) (peer : Peer)
    (t0 t1 : Int) (rest : List (NoisePublicKey × Peer)) :
    (Device.PeerStats
        ⟨(pk, (peer.initiateHandshake t0).completeHandshake t1) :: rest⟩ pk).1 =
        some ⟨peer.stats.rxBytes, peer.stats.txBytes, timeUnix 0 t1⟩ ∧
      (t0 ≠ t1 → timeUnix 0 t1 ≠ timeUnix 0 t0) := by
  constructor
  · rw [@Device.PeerStats_of_lookup_some
      ⟨(pk, (peer.initiateHandshake t0).completeHandshake t1) :: rest⟩ pk
      ((peer.initiateHandshake t0).completeHandshake t1) (by simp [List.lookup])]
    rfl
  · intro hne heq
    exact hne (timeUnix_zero_inj heq).symm

/-- Witness for `peerStats_reports_completion` at a concrete peer whose
handshake was initiated at nanosecond 100 and completed at nanosecond
250. -/
theorem peerStats_reports_completion_witness :
    (Device.PeerStats
        ⟨[(7, (Peer.initiateHandshake ⟨⟨1, 2, 0⟩, none⟩ 100).completeHandshake 250)]⟩
        7).1 =
        some ⟨1, 2, timeUnix 0 250⟩ ∧
      timeUnix 0 250 ≠ timeUnix 0 100 :=
  ⟨(peerStats_reports_completion 7 ⟨⟨1, 2, 0⟩, none⟩ 100 250 []).1,
    (peerStats_reports_completion 7 ⟨⟨1, 2, 0⟩, none⟩ 100 250 []).2 (by decide)⟩

/-! ### Bounded queues, buffer pool and datagram size -/

/-- Modelled from the spec (§4.5 bounded memory, missing from the extracted
sources): push onto a peer's outbound staging queue of capacity
`QueueOutboundSize`; on overflow the oldest entry for that peer is dropped
to make room for the new one. The queue is a list with the oldest entry at
the head. -/
def outboundPush {α : Type} (q : List α) (x : α) : List α :=
  if q.length < QueueOutboundSize then q ++ [x] else q.tail ++ [x]

/-- Modelled from the spec (§4.5 bounded memory, missing from the extracted
sources): push onto a peer's inbound staging queue of capacity
`QueueInboundSize`; on overflow the arriving datagram itself is dropped. -/
def inboundPush {α : Type} (q : List α) (x : α) : List α :=
  if q.length < QueueInboundSize then q ++ [x] else q

/-- Modelled from the spec (§4.5 bounded memory, missing from the extracted
sources): push onto the handshake queue of capacity `QueueHandshakeSize`;
on overflow the arriving datagram is dropped. -/
def handshakePush {α : Type} (q : List α) (x : α) : List α :=
  if q.length < QueueHandshakeSize then q ++ [x] else q

/-- C6: every per-peer queue has the fixed capacity stated by the spec —
outbound 1024, inbound 1024, handshake 1024; a queue within its capacity
stays within it across any push; and on overflow the outbound push drops
the oldest entry for that peer while an overflowing inbound or handshake
datagram is itself dropped. -/
theorem queue_capacities :
    QueueOutboundSize = 1024 ∧ QueueInboundSize = 1024 ∧
      QueueHandshakeSize = 1024 ∧
    (∀ (α : Type) (q : List α) (x : α), q.length ≤ QueueOutboundSize →
      (outboundPush q x).length ≤ QueueOutboundSize) ∧
    (∀ (α : Type) (q : List α) (x : α), q.length ≤ QueueInboundSize →
      (inboundPush q x).length ≤ QueueInboundSize) ∧
    (∀ (α : Type) (q : List α) (x : α), q.length ≤ QueueHandshakeSize →
      (handshakePush q x).length ≤ QueueHandshakeSize) ∧
    (∀ (α : Type) (q : List α) (x : α), q.length = QueueOutboundSize →
      outboundPush q x = q.tail ++ [x]) ∧
    (∀ (α : Type) (q : List α) (x : α), q.length = QueueInboundSize →
      inboundPush q x = q) ∧
    (∀ (α : Type) (q : List α) (x : α), q.length = QueueHandshakeSize →
      handshakePush q x = q) := by
  refine ⟨rfl, rfl, rfl, ?_, ?_, ?_, ?_, ?_, ?_⟩
  · intro α q x h
    unfold outboundPush
    by_cases hlt : q.length < QueueOutboundSize
    · rw [if_pos hlt]
      simp only [List.length_append, List.length_cons, List.length_nil]
      omega
    · rw [if_neg hlt]
      simp only [List.length_append, List.length_tail, List.length_cons,
        List.length_nil]
      have hQ : QueueOutboundSize = 1024 := rfl
      omega
  · intro α q x h
    unfold inboundPush
    by_cases hlt : q.length < QueueInboundSize
    · rw [if_pos hlt]
      simp only [List.length_append, List.length_cons, List.length_nil]
      omega
    · rw [if_neg hlt]
      omega
  · intro α q x h
    unfold handshakePush
    by_cases hlt : q.length < QueueHandshakeSize
    · rw [if_pos hlt]
      simp only [List.length_append, List.length_cons, List.length_nil]
      omega
    · rw [if_neg hlt]
      omega
  · intro α q x h
    unfold outboundPush
    rw [if_neg (by omega)]
  · intro α q x h
    unfold inboundPush
    rw [if_neg (by omega)]
  · intro α q x h
    unfold handshakePush
    rw [if_neg (by omega)]

/-- Witness for `queue_capacities` at a full concrete queue of 1024
entries and a queue of one entry. -/
theorem queue_capacities_witness :
    outboundPush (List.replicate 1024 (0 : Nat)) 7 =
        (List.replicate 1024 (0 : Nat)).tail ++ [7] ∧
      inboundPush (List.replicate 1024 (0 : Nat)) 7 =
        List.replicate 1024 (0 : Nat) ∧
      (outboundPush [5] (6 : Nat)).length ≤ QueueOutboundSize :=
  ⟨queue_capacities.2.2.2.2.2.2.1 Nat (List.replicate 1024 0) 7
      (by rw [List.length_replicate]; rfl),
    queue_capacities.2.2.2.2.2.2.2.1 Nat (List.replicate 1024 0) 7
      (by rw [List.length_replicate]; rfl),
    queue_capacities.2.2.2.1 Nat [5] 6 (by decide)⟩

/-- Modelled from the spec (§4.5/§9, missing from the extracted sources):
the preallocated buffer pool, tracking free and in-flight buffer counts.
A fresh pool holds `PreallocatedBuffersPerPool` free buffers. -/
structure BufferPool where
  free : Nat
  inflight : Nat
deriving DecidableEq

/-- A fresh pool: all buffers free, none in flight. -/
def BufferPool.init : BufferPool := ⟨PreallocatedBuffersPerPool, 0⟩

/-- Modelled from the spec (§4.5 bounded memory, missing from the extracted
sources): acquire a buffer; when the pool is empty the caller blocks
briefly and then the packet is dropped on timeout (`false`) instead of
allocating new memory. -/
def BufferPool.acquire (p : BufferPool) : Bool × BufferPool :=
  if p.free = 0 then (false, p) else (true, ⟨p.free - 1, p.inflight + 1⟩)

/-- Release an in-flight buffer back to the pool. -/
def BufferPool.release (p : BufferPool) : BufferPool :=
  if p.inflight = 0 then p else ⟨p.free + 1, p.inflight - 1⟩

/-- Run a trace of pool operations (`true` = acquire, `false` =
release). -/
def BufferPool.run (p : BufferPool) : List Bool → BufferPool
  | [] => p
  | op :: ops => (if op then (p.acquire).2 else p.release).run ops

theorem BufferPool.run_sum :
    ∀ (ops : List Bool) (p : BufferPool),
      (p.run ops).free + (p.run ops).inflight = p.free + p.inflight := by
  intro ops
  induction ops with
  | nil => intro p; rfl
  | cons op ops ih =>
    intro p
    have hstep : ∀ q : BufferPool, (p.run (op :: ops)) =
        (if op then (p.acquire).2 else p.release).run ops := fun _ => rfl
    rw [hstep p, ih]
    cases op with
    | true =>
      simp only [if_true, ite_true]
      unfold BufferPool.acquire
      by_cases h : p.free = 0
      · rw [if_pos h]
      · rw [if_neg h]
        dsimp only
        omega
    | false =>
      rw [if_neg Bool.false_ne_true]
      unfold BufferPool.release
      by_cases h : p.inflight = 0
      · rw [if_pos h]
      · rw [if_neg h]
        dsimp only
        omega

/-- C7: the AEAD buffer pool is preallocated with a fixed size of 1024
buffers; along any trace of acquires and releases from a fresh pool the
free and in-flight counts sum to exactly 1024, so at most 1024 buffers are
ever in flight and memory stays bounded; and acquiring from an empty pool
fails (the packet is dropped on timeout) rather than growing the pool. -/
theorem buffer_pool_bounded :
    PreallocatedBuffersPerPool = 1024 ∧
    (∀ ops : List Bool,
      (BufferPool.init.run ops).free + (BufferPool.init.run ops).inflight =
        PreallocatedBuffersPerPool) ∧
    (∀ ops : List Bool,
      (BufferPool.init.run ops).inflight ≤ PreallocatedBuffersPerPool) ∧
    (∀ p : BufferPool, p.free = 0 → p.acquire = (false, p)) := by
  have hsum : ∀ ops : List Bool,
      (BufferPool.init.run ops).free + (BufferPool.init.run ops).inflight =
        PreallocatedBuffersPerPool := by
    intro ops
    rw [BufferPool.run_sum ops BufferPool.init]
    rfl
  refine ⟨rfl, hsum, ?_, ?_⟩
  · intro ops
    have h := hsum ops
    omega
  · intro p h
    unfold BufferPool.acquire
    rw [if_pos h]

/-- Witness for `buffer_pool_bounded`: acquiring from a concrete exhausted
pool fails and returns the pool unchanged. -/
theorem buffer_pool_bounded_witness :
    BufferPool.acquire ⟨0, 1024⟩ = (false, ⟨0, 1024⟩) :=
  buffer_pool_bounded.2.2.2 ⟨0, 1024⟩ rfl

/-- Modelled from the spec (§2 UDP bind manager, missing from the extracted
sources): each UDP receive reads the datagram into a fixed buffer of
`MaxSegmentSize` bytes, so what enters the pipeline never exceeds that
length. -/
def recvDatagram (payload : List Nat) : List Nat :=
  payload.take MaxSegmentSize

theorem sealTransport_length (S : Session) (ctr : Nat) (packet : List Nat) :
    (sealTransport S ctr packet).length =
      32 + packet.length + (16 - packet.length % 16) % 16 := by
  unfold sealTransport
  simp only [List.length_cons, List.length_append, aeadSeal_length]
  have h4 : (le32 S.remoteIndex).length = 4 := rfl
  have h8 : (le64 ctr).length = 8 := rfl
  have hpad : (padTo16 packet).length =
      packet.length + (16 - packet.length % 16) % 16 := by
    unfold padTo16
    rw [List.length_append, List.length_replicate]
  rw [h4, h8, hpad]
  omega

/-- C10: `MaxSegmentSize` is `2^16 − 1 = 65535`, the largest possible UDP
datagram: every received datagram is read into a buffer of that size, and
every transport frame the device seals from an inner packet of at most
65488 bytes (any packet within a realistic MTU) fits in at most 65535
bytes, so no transport frame exceeds this length. -/
theorem max_segment_size :
    MaxSegmentSize = 65535 ∧ MaxSegmentSize = 2 ^ 16 - 1 ∧
    (∀ payload : List Nat, (recvDatagram payload).length ≤ MaxSegmentSize) ∧
    (∀ (S : Session) (ctr : Nat) (packet : List Nat),
      packet.length ≤ 65488 →
      (sealTransport S ctr packet).length ≤ MaxSegmentSize) := by
  refine ⟨rfl, rfl, ?_, ?_⟩
  · intro payload
    unfold recvDatagram
    exact (List.length_take _ _).le.trans (min_le_left _ _)
  · intro S ctr packet h
    rw [sealTransport_length]
    have hmod : (16 - packet.length % 16) % 16 ≤ 15 := by omega
    unfold MaxSegmentSize
    omega

/-- Witness for `max_segment_size`: a sealed empty keepalive frame fits in
a UDP datagram. -/
theorem max_segment_size_witness :
    (sealTransport ⟨0, 0, 0, 0⟩ 0 []).length ≤ MaxSegmentSize :=
  max_segment_size.2.2.2 ⟨0, 0, 0, 0⟩ 0 [] (by decide)

end WireGuard
